import Mathlib

/-!
A shallow embedding of the erfevents EventEmitter (src, TypeScript).

The emitter keeps a JavaScript Map from event name to a Set of listener
callbacks, and stores per-listener metadata (emitLimit, emitTimes, emitted)
as properties defined directly on the callback object itself via
Object.defineProperty (the decorate helper).

Modelling choices, all taken from the source:
  - callback objects are identified by an opaque id (CbId := Nat); JS Set
    membership and Map keys compare by identity / string equality, so an
    insertion-ordered duplicate-free association list models a Map, and an
    insertion-ordered duplicate-free list models a Set;
  - the property table of a callback object is an association list from
    property key to a property descriptor (value, writable, enumerable,
    configurable), exactly what Object.defineProperty manipulates;
  - JS numbers appearing in the emitter are the integers together with
    Infinity (the default emitLimit), modelled as WithTop Int; emitTimes
    starts at 0 and is only ever incremented;
  - reading an absent property yields undefined; `a >= b` on JS values is
    false when a side is undefined (NaN comparison) and coerces booleans;
  - callbacks are opaque: invoking one has no effect on the emitter state,
    so an emit is recorded by the ordered trace of invoked callback ids.
-/

namespace ErfEvents

/-- Identity of a callback object (JS functions compare by reference). -/
abbrev CbId := Nat

/-- The JS values the emitter stores in listener properties. -/
inductive JsVal where
  | num : WithTop ℤ → JsVal
  | bool : Bool → JsVal
  | undefined : JsVal
deriving DecidableEq

/-- A JS property descriptor as set up by Object.defineProperty. -/
structure PropDesc where
  value : JsVal
  writable : Bool
  enumerable : Bool
  configurable : Bool
deriving DecidableEq

/-- The own-property table of a callback object. -/
abbrev Props := List (String × PropDesc)

/-- Lookup in an insertion-ordered association list (JS Map.get / property read). -/
def lookupKey {α β : Type} [DecidableEq α] : List (α × β) → α → Option β
  | [], _ => none
  | (k, v) :: rest, key => if k = key then some v else lookupKey rest key

/-- JS Map.set / Object.defineProperty: overwrite in place, else append. -/
def setKey {α β : Type} [DecidableEq α] : List (α × β) → α → β → List (α × β)
  | [], key, v => [(key, v)]
  | (k, w) :: rest, key, v =>
    if k = key then (key, v) :: rest else (k, w) :: setKey rest key v

/-- JS Map.delete. -/
def removeKey {α β : Type} [DecidableEq α] : List (α × β) → α → List (α × β)
  | [], _ => []
  | (k, v) :: rest, key =>
    if k = key then removeKey rest key else (k, v) :: removeKey rest key

/-- JS Set.delete: drop the (single) occurrence of an element. -/
def eraseOne : List CbId → CbId → List CbId
  | [], _ => []
  | c :: rest, cb => if c = cb then rest else c :: eraseOne rest cb

/-- Property read: the descriptor value, or undefined when absent. -/
def getProp (ps : Props) (k : String) : JsVal :=
  match lookupKey ps k with
  | some d => d.value
  | none => JsVal.undefined

/-- ToNumber coercion as far as the emitter needs it (undefined gives NaN,
represented by none). -/
def JsVal.toNum : JsVal → Option (WithTop ℤ)
  | .num n => some n
  | .bool b => some (if b then (1 : ℤ) else (0 : ℤ))
  | .undefined => none

/-- JS `a >= b`: numeric comparison, false when either side is NaN. -/
def jsGe (a b : JsVal) : Bool :=
  match a.toNum, b.toNum with
  | some x, some y => decide (y ≤ x)
  | _, _ => false

/-- JS `++x` on the stored values (Infinity + 1 = Infinity; a non-number
would become NaN, which never happens on decorated listeners). -/
def jsInc : JsVal → JsVal
  | .num n => .num (n + 1)
  | _ => .undefined

/-- JS truthiness of the values at hand (0 is falsy, undefined is falsy). -/
def jsTruthy : JsVal → Bool
  | .num n => decide (n ≠ 0)
  | .bool b => b
  | .undefined => false

/-- The mutable world: the emitter's private event table together with the
property tables of all callback objects (decoration is attached to the
callback itself, so it is shared between all registrations of one callback). -/
structure EmitterState where
  events : List (String × List CbId)
  props : CbId → Props

/-- A fresh emitter over undecorated callbacks. -/
def emptyState : EmitterState :=
  { events := [], props := fun _ => [] }

/-- static decorate(listener, values): for each key of values, define it on
the listener as writable, non-enumerable, non-configurable, and return the
listener itself. -/
def decorateProps (ps : Props) (values : List (String × JsVal)) : Props :=
  values.foldl
    (fun acc kv =>
      setKey acc kv.1
        { value := kv.2, writable := true, enumerable := false, configurable := false })
    ps

/-- static decorate at the level of the callback world: mutates the property
table of the given listener and returns the same reference. -/
def decorate (props : CbId → Props) (listener : CbId) (values : List (String × JsVal)) :
    (CbId → Props) × CbId :=
  (fun c => if c = listener then decorateProps (props listener) values else props c, listener)

/-- Modelled from the spec: the Validator module is imported by the emitter
but its source file is not part of the provided sources; per the spec,
registration "validates that name is a non-empty string-like key", so string
validation succeeds exactly on non-empty strings. Number validation accepts
every number (hence every value of WithTop Int) and function validation
accepts every callback id, as both are already enforced by the types here. -/
def validString (s : String) : Bool := s ≠ ""

/-- Body of on(name, listener, emitLimit) after validation: decorate the
listener with { emitLimit, emitTimes: 0 } and add it to the (possibly fresh)
Set for the name. Set.add is a no-op when the reference is already present. -/
def onCore (st : EmitterState) (name : String) (listener : CbId) (emitLimit : WithTop ℤ) :
    EmitterState :=
  let cbs := (lookupKey st.events name).getD []
  let dec := decorate st.props listener
    [("emitLimit", JsVal.num emitLimit), ("emitTimes", JsVal.num ((0 : ℤ) : WithTop ℤ))]
  let cbs' := if dec.2 ∈ cbs then cbs else cbs ++ [dec.2]
  { events := setKey st.events name cbs', props := dec.1 }

/-- on(name, listener, emitLimit = Infinity): validate, then register. -/
def «on» (st : EmitterState) (name : String) (listener : CbId) (emitLimit : WithTop ℤ) :
    Except String EmitterState :=
  if validString name then .ok (onCore st name listener emitLimit)
  else .error "ExpectedStringError"

/-- once(name, listener): validate the listener (always fine on a callback id)
and delegate to on(name, listener, 1). -/
def once (st : EmitterState) (name : String) (listener : CbId) : Except String EmitterState :=
  «on» st name listener ((1 : ℤ) : WithTop ℤ)

/-- Body of off(name, listener) after validation: delete the listener from the
Set for the name and drop the name when its Set becomes empty. -/
def offCore (st : EmitterState) (name : String) (listener : CbId) : EmitterState :=
  match lookupKey st.events name with
  | none => st
  | some cbs =>
    let cbs' := eraseOne cbs listener
    if cbs' = [] then { events := removeKey st.events name, props := st.props }
    else { events := setKey st.events name cbs', props := st.props }

/-- off(name, listener): validate, then remove. -/
def off (st : EmitterState) (name : String) (listener : CbId) : Except String EmitterState :=
  if validString name then .ok (offCore st name listener)
  else .error "ExpectedStringError"

/-- The for-of loop of emit over the Set of a name: skip a listener whose
emitTimes >= emitLimit, otherwise invoke it (record its id in the trace) and
re-decorate it with { emitted: true, emitTimes: emitTimes + 1 }. -/
def emitLoop : (CbId → Props) → List CbId → (CbId → Props) × List CbId
  | props, [] => (props, [])
  | props, cb :: rest =>
    if jsGe (getProp (props cb) "emitTimes") (getProp (props cb) "emitLimit") then
      emitLoop props rest
    else
      let dec := decorate props cb
        [("emitted", JsVal.bool true), ("emitTimes", jsInc (getProp (props cb) "emitTimes"))]
      let next := emitLoop dec.1 rest
      (next.1, cb :: next.2)

/-- emit(event, ...args): false immediately when the name has no Set;
otherwise run the loop and return true. The middle component is the ordered
trace of invoked callback ids. -/
def emit (st : EmitterState) (event : String) : Bool × List CbId × EmitterState :=
  match lookupKey st.events event with
  | none => (false, [], st)
  | some cbs =>
    let r := emitLoop st.props cbs
    (true, r.2, { events := st.events, props := r.1 })

/-- removeAllListeners(name?): `if (name)` is JS truthiness, so an absent
name and the empty string both clear the whole table; a non-empty name
deletes just that key. -/
def removeAllListeners (st : EmitterState) (name : Option String) : EmitterState :=
  match name with
  | some n =>
    if n = "" then { events := [], props := st.props }
    else { events := removeKey st.events n, props := st.props }
  | none => { events := [], props := st.props }

/-- listenerCount(name): size of the Set for the name, 0 when absent. -/
def listenerCount (st : EmitterState) (name : String) : Nat :=
  match lookupKey st.events name with
  | none => 0
  | some cbs => cbs.length

/-- eventNames(): snapshot of the Map keys in insertion order. -/
def eventNames (st : EmitterState) : List String :=
  st.events.map Prod.fst

/-- isEmitted(listener): truthiness of the emitted decoration. -/
def isEmitted (st : EmitterState) (listener : CbId) : Bool :=
  jsTruthy (getProp (st.props listener) "emitted")

/-- n successive emit calls for one name, accumulating the invocation trace. -/
def emitN (st : EmitterState) (name : String) : Nat → EmitterState × List CbId
  | 0 => (st, [])
  | n + 1 =>
    let prev := emitN st name n
    let e := emit prev.1 name
    (e.2.2, prev.2 ++ e.2.1)

/-- The states an emitter can actually reach through its public interface
(operations whose validation fails throw and leave the state unchanged). -/
inductive Reachable : EmitterState → Prop where
  | empty : Reachable emptyState
  | onStep {st st' : EmitterState} {name : String} {cb : CbId} {l : WithTop ℤ} :
      Reachable st → «on» st name cb l = .ok st' → Reachable st'
  | onceStep {st st' : EmitterState} {name : String} {cb : CbId} :
      Reachable st → once st name cb = .ok st' → Reachable st'
  | offStep {st st' : EmitterState} {name : String} {cb : CbId} :
      Reachable st → off st name cb = .ok st' → Reachable st'
  | emitStep {st : EmitterState} {name : String} :
      Reachable st → Reachable (emit st name).2.2
  | removeStep {st : EmitterState} {name : Option String} :
      Reachable st → Reachable (removeAllListeners st name)

/-- Structural well-formedness of the event table: every stored Set is
non-empty and duplicate-free, and the Map keys are duplicate-free. -/
def StateWF (st : EmitterState) : Prop :=
  (∀ p ∈ st.events, p.2 ≠ [] ∧ p.2.Nodup) ∧ (st.events.map Prod.fst).Nodup

/-! Association-list lemmas. -/

theorem lookupKey_setKey_self {α β : Type} [DecidableEq α] (l : List (α × β)) (k : α) (v : β) :
    lookupKey (setKey l k v) k = some v := by
  induction l with
  | nil => simp [setKey, lookupKey]
  | cons p rest ih =>
    obtain ⟨k', v'⟩ := p
    by_cases h : k' = k
    · simp [setKey, h, lookupKey]
    · simp [setKey, h, lookupKey, ih]

theorem lookupKey_setKey_ne {α β : Type} [DecidableEq α] (l : List (α × β)) (k k' : α) (v : β)
    (h : k' ≠ k) : lookupKey (setKey l k v) k' = lookupKey l k' := by
  induction l with
  | nil => simp [setKey, lookupKey, Ne.symm h]
  | cons p rest ih =>
    obtain ⟨a, b⟩ := p
    by_cases ha : a = k
    · subst ha
      simp [setKey, lookupKey, Ne.symm h]
    · simp only [setKey, if_neg ha, lookupKey]
      by_cases hb : a = k'
      · simp [hb]
      · simp [hb, ih]

theorem lookupKey_removeKey_self {α β : Type} [DecidableEq α] (l : List (α × β)) (k : α) :
    lookupKey (removeKey l k) k = none := by
  induction l with
  | nil => simp [removeKey, lookupKey]
  | cons p rest ih =>
    obtain ⟨a, b⟩ := p
    by_cases ha : a = k
    · simp [removeKey, ha, ih]
    · simp [removeKey, ha, lookupKey, ih]

theorem lookupKey_removeKey_ne {α β : Type} [DecidableEq α] (l : List (α × β)) (k k' : α)
    (h : k' ≠ k) : lookupKey (removeKey l k) k' = lookupKey l k' := by
  induction l with
  | nil => simp [removeKey]
  | cons p rest ih =>
    obtain ⟨a, b⟩ := p
    by_cases ha : a = k
    · subst ha
      simp [removeKey, lookupKey, Ne.symm h, ih]
    · simp only [removeKey, if_neg ha, lookupKey]
      by_cases hb : a = k'
      · simp [hb]
      · simp [hb, ih]

theorem lookupKey_some_mem {α β : Type} [DecidableEq α] {l : List (α × β)} {k : α} {v : β}
    (h : lookupKey l k = some v) : (k, v) ∈ l := by
  induction l with
  | nil => simp [lookupKey] at h
  | cons p rest ih =>
    obtain ⟨a, b⟩ := p
    by_cases ha : a = k
    · subst ha
      simp [lookupKey] at h
      simp [h]
    · simp only [lookupKey, if_neg ha] at h
      exact List.mem_cons_of_mem _ (ih h)

theorem lookupKey_eq_none_iff {α β : Type} [DecidableEq α] (l : List (α × β)) (k : α) :
    lookupKey l k = none ↔ k ∉ l.map Prod.fst := by
  induction l with
  | nil => simp [lookupKey]
  | cons p rest ih =>
    obtain ⟨a, b⟩ := p
    by_cases ha : a = k
    · subst ha
      simp [lookupKey]
    · simp [lookupKey, ha, ih, Ne.symm ha]

theorem mem_setKey {α β : Type} [DecidableEq α] {l : List (α × β)} {k : α} {v : β} {p : α × β}
    (h : p ∈ setKey l k v) : p = (k, v) ∨ p ∈ l := by
  induction l with
  | nil => simpa [setKey] using h
  | cons q rest ih =>
    obtain ⟨a, b⟩ := q
    by_cases ha : a = k
    · simp only [setKey, if_pos ha] at h
      rcases List.mem_cons.mp h with h | h
      · exact Or.inl h
      · exact Or.inr (List.mem_cons_of_mem _ h)
    · simp only [setKey, if_neg ha] at h
      rcases List.mem_cons.mp h with h | h
      · exact Or.inr (List.mem_cons.mpr (Or.inl h))
      · rcases ih h with h | h
        · exact Or.inl h
        · exact Or.inr (List.mem_cons_of_mem _ h)

theorem mem_map_fst_setKey {α β : Type} [DecidableEq α] {l : List (α × β)} {k a : α} {v : β}
    (h : a ∈ (setKey l k v).map Prod.fst) : a = k ∨ a ∈ l.map Prod.fst := by
  rcases List.mem_map.mp h with ⟨p, hp, rfl⟩
  rcases mem_setKey hp with h | h
  · subst h; exact Or.inl rfl
  · exact Or.inr (List.mem_map_of_mem _ h)

theorem nodup_map_fst_setKey {α β : Type} [DecidableEq α] {l : List (α × β)} {k : α} {v : β}
    (h : (l.map Prod.fst).Nodup) : ((setKey l k v).map Prod.fst).Nodup := by
  induction l with
  | nil => simp [setKey]
  | cons p rest ih =>
    obtain ⟨a, b⟩ := p
    simp only [List.map_cons, List.nodup_cons] at h
    by_cases ha : a = k
    · subst ha
      simpa [setKey] using h
    · simp only [setKey, if_neg ha, List.map_cons, List.nodup_cons]
      refine ⟨fun hmem => ?_, ih h.2⟩
      rcases mem_map_fst_setKey hmem with h' | h'
      · exact ha h'
      · exact h.1 h'

theorem removeKey_sublist {α β : Type} [DecidableEq α] (l : List (α × β)) (k : α) :
    List.Sublist (removeKey l k) l := by
  induction l with
  | nil => simp [removeKey]
  | cons p rest ih =>
    obtain ⟨a, b⟩ := p
    by_cases ha : a = k
    · simpa [removeKey, ha] using ih.cons (a, b)
    · simpa [removeKey, ha] using ih.cons₂ (a, b)

theorem eraseOne_sublist (l : List CbId) (cb : CbId) : List.Sublist (eraseOne l cb) l := by
  induction l with
  | nil => simp [eraseOne]
  | cons c rest ih =>
    by_cases hc : c = cb
    · simp [eraseOne, hc]
    · simpa [eraseOne, hc] using ih.cons₂ c

theorem setKey_of_lookup_self {α β : Type} [DecidableEq α] {l : List (α × β)} {k : α} {v : β}
    (h : lookupKey l k = some v) : setKey l k v = l := by
  induction l with
  | nil => simp [lookupKey] at h
  | cons p rest ih =>
    obtain ⟨a, b⟩ := p
    by_cases ha : a = k
    · subst ha
      have hb : b = v := by simpa [lookupKey] using h
      subst hb
      simp [setKey]
    · simp only [lookupKey, if_neg ha] at h
      simp [setKey, ha, ih h]

theorem mem_eraseOne {l : List CbId} {cb a : CbId} (h : a ∈ eraseOne l cb) : a ∈ l :=
  (eraseOne_sublist l cb).subset h

/-! Property-table computations. -/

/-- The metadata decoration applied by on: emitLimit := given, emitTimes := 0. -/
def regPs (ps : Props) (emitLimit : WithTop ℤ) : Props :=
  decorateProps ps
    [("emitLimit", JsVal.num emitLimit), ("emitTimes", JsVal.num ((0 : ℤ) : WithTop ℤ))]

/-- The metadata decoration applied by emit to an invoked listener. -/
def stepPs (ps : Props) : Props :=
  decorateProps ps [("emitted", JsVal.bool true), ("emitTimes", jsInc (getProp ps "emitTimes"))]

/-- The dormancy test of the emit loop, read off a property table. -/
def dormantPs (ps : Props) : Bool :=
  jsGe (getProp ps "emitTimes") (getProp ps "emitLimit")

theorem getProp_setKey_self (ps : Props) (k : String) (d : PropDesc) :
    getProp (setKey ps k d) k = d.value := by
  simp [getProp, lookupKey_setKey_self]

theorem getProp_setKey_ne (ps : Props) (k k' : String) (d : PropDesc) (h : k' ≠ k) :
    getProp (setKey ps k d) k' = getProp ps k' := by
  simp [getProp, lookupKey_setKey_ne _ _ _ _ h]

theorem decorateProps_pair (ps : Props) (k1 k2 : String) (v1 v2 : JsVal) :
    decorateProps ps [(k1, v1), (k2, v2)] =
      setKey (setKey ps k1 ⟨v1, true, false, false⟩) k2 ⟨v2, true, false, false⟩ := rfl

theorem getProp_regPs_times (ps : Props) (L : WithTop ℤ) :
    getProp (regPs ps L) "emitTimes" = JsVal.num ((0 : ℤ) : WithTop ℤ) := by
  rw [regPs, decorateProps_pair, getProp_setKey_self]

theorem getProp_regPs_limit (ps : Props) (L : WithTop ℤ) :
    getProp (regPs ps L) "emitLimit" = JsVal.num L := by
  rw [regPs, decorateProps_pair, getProp_setKey_ne _ _ _ _ (by decide), getProp_setKey_self]

theorem getProp_stepPs_times (ps : Props) :
    getProp (stepPs ps) "emitTimes" = jsInc (getProp ps "emitTimes") := by
  rw [stepPs, decorateProps_pair, getProp_setKey_self]

theorem getProp_stepPs_limit (ps : Props) :
    getProp (stepPs ps) "emitLimit" = getProp ps "emitLimit" := by
  rw [stepPs, decorateProps_pair, getProp_setKey_ne _ _ _ _ (by decide),
    getProp_setKey_ne _ _ _ _ (by decide)]

theorem getProp_stepPs_emitted (ps : Props) :
    getProp (stepPs ps) "emitted" = JsVal.bool true := by
  rw [stepPs, decorateProps_pair, getProp_setKey_ne _ _ _ _ (by decide), getProp_setKey_self]

/-! Unfolding the operations. -/

theorem on_ok (st : EmitterState) (name : String) (cb : CbId) (L : WithTop ℤ) (h : name ≠ "") :
    «on» st name cb L = .ok (onCore st name cb L) := by
  simp [«on», validString, h]

theorem off_ok (st : EmitterState) (name : String) (cb : CbId) (h : name ≠ "") :
    off st name cb = .ok (offCore st name cb) := by
  simp [off, validString, h]

theorem onCore_props_self (st : EmitterState) (name : String) (cb : CbId) (L : WithTop ℤ) :
    (onCore st name cb L).props cb = regPs (st.props cb) L := by
  simp [onCore, decorate, regPs]

theorem onCore_props_ne (st : EmitterState) (name : String) (cb : CbId) (L : WithTop ℤ)
    (c : CbId) (h : c ≠ cb) : (onCore st name cb L).props c = st.props c := by
  simp [onCore, decorate, h]

theorem onCore_events (st : EmitterState) (name : String) (cb : CbId) (L : WithTop ℤ) :
    (onCore st name cb L).events =
      setKey st.events name
        (if cb ∈ (lookupKey st.events name).getD [] then (lookupKey st.events name).getD []
         else (lookupKey st.events name).getD [] ++ [cb]) := rfl

/-! The emit loop. -/

/-- The pointwise update emit performs on the callback world when it invokes
one listener. -/
def stepUpd (props : CbId → Props) (cb : CbId) : CbId → Props :=
  fun c => if c = cb then stepPs (props cb) else props c

theorem emitLoop_cons_dormant {props : CbId → Props} {cb : CbId} (rest : List CbId)
    (h : dormantPs (props cb) = true) :
    emitLoop props (cb :: rest) = emitLoop props rest := by
  have h' : jsGe (getProp (props cb) "emitTimes") (getProp (props cb) "emitLimit") = true := h
  simp only [emitLoop, if_pos h']

theorem emitLoop_cons_active {props : CbId → Props} {cb : CbId} (rest : List CbId)
    (h : dormantPs (props cb) = false) :
    emitLoop props (cb :: rest) =
      ((emitLoop (stepUpd props cb) rest).1, cb :: (emitLoop (stepUpd props cb) rest).2) := by
  have h' : jsGe (getProp (props cb) "emitTimes") (getProp (props cb) "emitLimit") = false := h
  simp only [emitLoop, h', Bool.false_eq_true, if_false]
  rfl

theorem emitLoop_props_notMem {props : CbId → Props} {cbs : List CbId} {c : CbId}
    (h : c ∉ cbs) : (emitLoop props cbs).1 c = props c := by
  induction cbs generalizing props with
  | nil => rfl
  | cons cb rest ih =>
    have hc : c ≠ cb := fun he => h (he ▸ List.mem_cons_self cb rest)
    have hr : c ∉ rest := fun hm => h (List.mem_cons_of_mem _ hm)
    cases hd : dormantPs (props cb) with
    | true =>
      rw [emitLoop_cons_dormant rest hd]
      exact ih hr
    | false =>
      rw [emitLoop_cons_active rest hd]
      dsimp only
      rw [ih hr]
      simp [stepUpd, hc]

theorem emitLoop_trace_mem {props : CbId → Props} {cbs : List CbId} {c : CbId}
    (h : c ∈ (emitLoop props cbs).2) : c ∈ cbs := by
  induction cbs generalizing props with
  | nil => simp [emitLoop] at h
  | cons cb rest ih =>
    cases hd : dormantPs (props cb) with
    | true =>
      rw [emitLoop_cons_dormant rest hd] at h
      exact List.mem_cons_of_mem _ (ih h)
    | false =>
      rw [emitLoop_cons_active rest hd] at h
      rcases List.mem_cons.mp h with h | h
      · exact h ▸ List.mem_cons_self cb rest
      · exact List.mem_cons_of_mem _ (ih h)

theorem emitLoop_at_mem {props : CbId → Props} {cbs : List CbId} {cb : CbId}
    (hmem : cb ∈ cbs) (hnd : cbs.Nodup) :
    (emitLoop props cbs).1 cb = (if dormantPs (props cb) then props cb else stepPs (props cb))
    ∧ (emitLoop props cbs).2.count cb = (if dormantPs (props cb) then 0 else 1) := by
  induction cbs generalizing props with
  | nil => cases hmem
  | cons c rest ih =>
    rcases List.mem_cons.mp hmem with rfl | hmem'
    · have hout : cb ∉ rest := (List.nodup_cons.mp hnd).1
      cases hd : dormantPs (props cb) with
      | true =>
        rw [emitLoop_cons_dormant rest hd]
        have hnotr : cb ∉ (emitLoop props rest).2 :=
          fun hc => hout (emitLoop_trace_mem hc)
        refine ⟨?_, ?_⟩
        · rw [emitLoop_props_notMem hout]
          simp
        · simp [List.count_eq_zero.mpr hnotr]
      | false =>
        rw [emitLoop_cons_active rest hd]
        have hnotr : cb ∉ (emitLoop (stepUpd props cb) rest).2 :=
          fun hc => hout (emitLoop_trace_mem hc)
        refine ⟨?_, ?_⟩
        · dsimp only
          rw [emitLoop_props_notMem hout]
          simp [stepUpd]
        · dsimp only
          rw [List.count_cons_self, List.count_eq_zero.mpr hnotr]
          simp
    · have hne : cb ≠ c := fun he => (List.nodup_cons.mp hnd).1 (he ▸ hmem')
      have hrnd : rest.Nodup := (List.nodup_cons.mp hnd).2
      cases hd : dormantPs (props c) with
      | true =>
        rw [emitLoop_cons_dormant rest hd]
        exact ih hmem' hrnd
      | false =>
        rw [emitLoop_cons_active rest hd]
        have hupd : stepUpd props c cb = props cb := by simp [stepUpd, hne]
        have hres := @ih (stepUpd props c) hmem' hrnd
        rw [hupd] at hres
        refine ⟨hres.1, ?_⟩
        dsimp only
        rw [List.count_cons_of_ne hne]
        exact hres.2

/-! The emit operation. -/

theorem emit_none {st : EmitterState} {name : String}
    (h : lookupKey st.events name = none) : emit st name = (false, [], st) := by
  simp [emit, h]

theorem emit_some {st : EmitterState} {name : String} {cbs : List CbId}
    (h : lookupKey st.events name = some cbs) :
    emit st name =
      (true, (emitLoop st.props cbs).2,
        { events := st.events, props := (emitLoop st.props cbs).1 }) := by
  simp [emit, h]

theorem emit_events_eq (st : EmitterState) (name : String) :
    (emit st name).2.2.events = st.events := by
  cases h : lookupKey st.events name with
  | none => rw [emit_none h]
  | some cbs => rw [emit_some h]

theorem emitN_succ (st : EmitterState) (name : String) (n : ℕ) :
    emitN st name (n + 1) =
      ((emit (emitN st name n).1 name).2.2,
        (emitN st name n).2 ++ (emit (emitN st name n).1 name).2.1) := rfl

theorem emitN_events (st : EmitterState) (name : String) (n : ℕ) :
    (emitN st name n).1.events = st.events := by
  induction n with
  | zero => rfl
  | succ n ih => rw [emitN_succ]; dsimp only; rw [emit_events_eq, ih]

theorem dormantPs_num {ps : Props} {t LV : WithTop ℤ}
    (ht : getProp ps "emitTimes" = JsVal.num t) (hl : getProp ps "emitLimit" = JsVal.num LV) :
    dormantPs ps = decide (LV ≤ t) := by
  simp [dormantPs, ht, hl, jsGe, JsVal.toNum]

theorem jsInc_natCast (a : ℕ) :
    jsInc (JsVal.num ((a : ℤ) : WithTop ℤ)) = JsVal.num (((a + 1 : ℕ) : ℤ) : WithTop ℤ) := by
  simp only [jsInc, JsVal.num.injEq]
  norm_cast

/-- One emit call seen from a dormant member of the Set of the emitted name:
it returns true, skips the listener, and leaves its properties untouched. -/
theorem emit_step_dormant {st : EmitterState} {name : String} {cb : CbId} {cbs : List CbId}
    {t LV : WithTop ℤ}
    (hlook : lookupKey st.events name = some cbs) (hmem : cb ∈ cbs) (hnd : cbs.Nodup)
    (ht : getProp (st.props cb) "emitTimes" = JsVal.num t)
    (hl : getProp (st.props cb) "emitLimit" = JsVal.num LV)
    (hge : LV ≤ t) :
    (emit st name).1 = true
    ∧ (emit st name).2.2.props cb = st.props cb
    ∧ (emit st name).2.1.count cb = 0 := by
  have hd : dormantPs (st.props cb) = true := by
    rw [dormantPs_num ht hl]
    exact decide_eq_true hge
  have hprops := (@emitLoop_at_mem st.props cbs cb hmem hnd).1
  have hcount := (@emitLoop_at_mem st.props cbs cb hmem hnd).2
  rw [hd, if_pos rfl] at hprops hcount
  rw [emit_some hlook]
  exact ⟨rfl, hprops, hcount⟩

/-- One emit call seen from an active member of the Set of the emitted name:
it returns true, invokes the listener exactly once, increments its emitTimes,
sets its emitted flag and keeps its emitLimit. -/
theorem emit_step_active {st : EmitterState} {name : String} {cb : CbId} {cbs : List CbId}
    {t : ℕ} {LV : WithTop ℤ}
    (hlook : lookupKey st.events name = some cbs) (hmem : cb ∈ cbs) (hnd : cbs.Nodup)
    (ht : getProp (st.props cb) "emitTimes" = JsVal.num ((t : ℤ) : WithTop ℤ))
    (hl : getProp (st.props cb) "emitLimit" = JsVal.num LV)
    (hlt : ((t : ℤ) : WithTop ℤ) < LV) :
    (emit st name).1 = true
    ∧ getProp ((emit st name).2.2.props cb) "emitTimes" =
        JsVal.num (((t + 1 : ℕ) : ℤ) : WithTop ℤ)
    ∧ getProp ((emit st name).2.2.props cb) "emitLimit" = JsVal.num LV
    ∧ getProp ((emit st name).2.2.props cb) "emitted" = JsVal.bool true
    ∧ (emit st name).2.1.count cb = 1 := by
  have hd : dormantPs (st.props cb) = false := by
    rw [dormantPs_num ht hl]
    exact decide_eq_false (not_le.mpr hlt)
  have hprops := (@emitLoop_at_mem st.props cbs cb hmem hnd).1
  have hcount := (@emitLoop_at_mem st.props cbs cb hmem hnd).2
  rw [hd] at hprops hcount
  simp only [Bool.false_eq_true, if_false] at hprops hcount
  rw [emit_some hlook]
  refine ⟨rfl, ?_, ?_, ?_, hcount⟩
  · dsimp only
    rw [hprops, getProp_stepPs_times, ht, jsInc_natCast]
  · dsimp only
    rw [hprops, getProp_stepPs_limit, hl]
  · dsimp only
    rw [hprops, getProp_stepPs_emitted]

theorem withTop_natCast_le {a b : ℕ} :
    (((a : ℤ) : WithTop ℤ) ≤ ((b : ℤ) : WithTop ℤ)) ↔ a ≤ b := by
  rw [WithTop.coe_le_coe]
  exact Int.ofNat_le

theorem withTop_natCast_lt {a b : ℕ} :
    (((a : ℤ) : WithTop ℤ) < ((b : ℤ) : WithTop ℤ)) ↔ a < b := by
  rw [WithTop.coe_lt_coe]
  exact Int.ofNat_lt

/-- Bookkeeping of a listener registered with a finite limit L across n
successive emits of its event: its recorded emitTimes is min n L, its
emitLimit stays L, and it was invoked exactly min n L times in total. -/
theorem emitN_counting {st : EmitterState} {name : String} {cb : CbId} {cbs : List CbId} {L : ℕ}
    (hlook : lookupKey st.events name = some cbs) (hmem : cb ∈ cbs) (hnd : cbs.Nodup)
    (ht : getProp (st.props cb) "emitTimes" = JsVal.num ((0 : ℤ) : WithTop ℤ))
    (hl : getProp (st.props cb) "emitLimit" = JsVal.num ((L : ℤ) : WithTop ℤ)) :
    ∀ n : ℕ,
      getProp ((emitN st name n).1.props cb) "emitTimes" =
        JsVal.num (((min n L : ℕ) : ℤ) : WithTop ℤ)
      ∧ getProp ((emitN st name n).1.props cb) "emitLimit" = JsVal.num ((L : ℤ) : WithTop ℤ)
      ∧ (emitN st name n).2.count cb = min n L := by
  intro n
  induction n with
  | zero =>
    refine ⟨?_, hl, by simp [emitN]⟩
    rw [show min 0 L = 0 from Nat.min_eq_left (Nat.zero_le L)]
    exact ht
  | succ n ih =>
    obtain ⟨iht, ihl, ihc⟩ := ih
    have hlook' : lookupKey (emitN st name n).1.events name = some cbs := by
      rw [emitN_events]; exact hlook
    by_cases hn : n < L
    · have hmin : min n L = n := Nat.min_eq_left (Nat.le_of_lt hn)
      have hlt : (((min n L : ℕ) : ℤ) : WithTop ℤ) < ((L : ℤ) : WithTop ℤ) := by
        rw [withTop_natCast_lt, hmin]; exact hn
      obtain ⟨_, ht', hl', _, hc'⟩ := emit_step_active hlook' hmem hnd iht ihl hlt
      rw [emitN_succ]
      refine ⟨?_, hl', ?_⟩
      · dsimp only
        rw [ht', show min n L + 1 = min (n + 1) L from by omega]
      · dsimp only
        rw [List.count_append, ihc, hc', show min n L + 1 = min (n + 1) L from by omega]
    · have hge : ((L : ℤ) : WithTop ℤ) ≤ (((min n L : ℕ) : ℤ) : WithTop ℤ) := by
        rw [withTop_natCast_le]; omega
      obtain ⟨_, hp', hc'⟩ := emit_step_dormant hlook' hmem hnd iht ihl hge
      rw [emitN_succ]
      refine ⟨?_, ?_, ?_⟩
      · dsimp only
        rw [hp', iht, show min n L = min (n + 1) L from by omega]
      · dsimp only
        rw [hp', ihl]
      · dsimp only
        rw [List.count_append, ihc, hc', show min n L + 0 = min (n + 1) L from by omega]

/-! Structural invariants of reachable states. -/

theorem on_ok_inv {st st' : EmitterState} {name : String} {cb : CbId} {l : WithTop ℤ}
    (h : «on» st name cb l = .ok st') : st' = onCore st name cb l ∧ name ≠ "" := by
  by_cases hv : validString name
  · rw [«on», if_pos hv] at h
    have hn : name ≠ "" := by simpa [validString] using hv
    exact ⟨(Except.ok.inj h).symm, hn⟩
  · rw [«on», if_neg hv] at h
    exact absurd h (by simp)

theorem off_ok_inv {st st' : EmitterState} {name : String} {cb : CbId}
    (h : off st name cb = .ok st') : st' = offCore st name cb ∧ name ≠ "" := by
  by_cases hv : validString name
  · rw [off, if_pos hv] at h
    have hn : name ≠ "" := by simpa [validString] using hv
    exact ⟨(Except.ok.inj h).symm, hn⟩
  · rw [off, if_neg hv] at h
    exact absurd h (by simp)

theorem wf_of_events_eq {st st' : EmitterState} (h : st'.events = st.events)
    (hwf : StateWF st) : StateWF st' := by
  rw [StateWF, h]
  exact hwf

theorem emptyState_wf : StateWF emptyState := by
  constructor <;> simp [emptyState]

theorem onCore_wf {st : EmitterState} (h : StateWF st) (name : String) (cb : CbId)
    (L : WithTop ℤ) : StateWF (onCore st name cb L) := by
  obtain ⟨hsets, hkeys⟩ := h
  rw [StateWF, onCore_events]
  have hc0 : (lookupKey st.events name).getD [] = [] ∨
      (name, (lookupKey st.events name).getD []) ∈ st.events := by
    cases hl : lookupKey st.events name with
    | none => left; simp
    | some v => right; simpa using lookupKey_some_mem hl
  have hnd0 : ((lookupKey st.events name).getD []).Nodup := by
    rcases hc0 with h0 | h0
    · simp [h0]
    · exact (hsets _ h0).2
  refine ⟨?_, nodup_map_fst_setKey hkeys⟩
  intro p hp
  rcases mem_setKey hp with heq | hp'
  · subst heq
    dsimp only
    by_cases hmem : cb ∈ (lookupKey st.events name).getD []
    · rw [if_pos hmem]
      exact ⟨List.ne_nil_of_mem hmem, hnd0⟩
    · rw [if_neg hmem]
      refine ⟨by simp, ?_⟩
      rw [List.nodup_append]
      exact ⟨hnd0, List.nodup_singleton cb, by
        intro a ha hb
        rw [List.mem_singleton] at hb
        exact hmem (hb ▸ ha)⟩
  · exact hsets _ hp'

theorem offCore_wf {st : EmitterState} (h : StateWF st) (name : String) (cb : CbId) :
    StateWF (offCore st name cb) := by
  obtain ⟨hsets, hkeys⟩ := h
  rw [offCore]
  cases hl : lookupKey st.events name with
  | none => exact ⟨hsets, hkeys⟩
  | some cbs =>
    dsimp only
    by_cases he : eraseOne cbs cb = []
    · rw [if_pos he]
      refine ⟨?_, ?_⟩
      · intro p hp
        exact hsets _ ((removeKey_sublist st.events name).subset hp)
      · exact ((removeKey_sublist st.events name).map Prod.fst).nodup hkeys
    · rw [if_neg he]
      refine ⟨?_, nodup_map_fst_setKey hkeys⟩
      intro p hp
      rcases mem_setKey hp with heq | hp'
      · subst heq
        refine ⟨he, ?_⟩
        exact (eraseOne_sublist cbs cb).nodup ((hsets _ (lookupKey_some_mem hl)).2)
      · exact hsets _ hp'

theorem removeAllListeners_wf {st : EmitterState} (h : StateWF st) (name : Option String) :
    StateWF (removeAllListeners st name) := by
  obtain ⟨hsets, hkeys⟩ := h
  cases name with
  | none => exact ⟨by simp [removeAllListeners], by simp [removeAllListeners]⟩
  | some n =>
    rw [removeAllListeners]
    by_cases hn : n = ""
    · rw [if_pos hn]
      exact ⟨by simp, by simp⟩
    · rw [if_neg hn]
      refine ⟨?_, ?_⟩
      · intro p hp
        exact hsets _ ((removeKey_sublist st.events n).subset hp)
      · exact ((removeKey_sublist st.events n).map Prod.fst).nodup hkeys

theorem reachable_wf {st : EmitterState} (h : Reachable st) : StateWF st := by
  induction h with
  | empty => exact emptyState_wf
  | onStep _ hok ih =>
    obtain ⟨rfl, -⟩ := on_ok_inv hok
    exact onCore_wf ih _ _ _
  | onceStep _ hok ih =>
    obtain ⟨rfl, -⟩ := on_ok_inv hok
    exact onCore_wf ih _ _ _
  | offStep _ hok ih =>
    obtain ⟨rfl, -⟩ := off_ok_inv hok
    exact offCore_wf ih _ _
  | emitStep _ ih =>
    exact wf_of_events_eq (emit_events_eq _ _) ih
  | removeStep _ ih =>
    exact removeAllListeners_wf ih _

/-! The metadata invariant: every registered listener carries numeric
emitTimes and emitLimit decorations with emitTimes bounded by
max(emitLimit, 0). -/

/-- Well-formed listener metadata on one property table. -/
def MetaOK (ps : Props) : Prop :=
  ∃ (t : ℕ) (L : WithTop ℤ),
    getProp ps "emitTimes" = JsVal.num ((t : ℤ) : WithTop ℤ)
    ∧ getProp ps "emitLimit" = JsVal.num L
    ∧ ((t : ℤ) : WithTop ℤ) ≤ max L (((0 : ℤ) : WithTop ℤ))

/-- Every listener entry of the event table has well-formed metadata. -/
def MetaBound (st : EmitterState) : Prop :=
  ∀ p ∈ st.events, ∀ cb ∈ p.2, MetaOK (st.props cb)

theorem withTop_add_one_le_of_lt {t : ℕ} {L : WithTop ℤ}
    (h : ((t : ℤ) : WithTop ℤ) < L) : (((t + 1 : ℕ) : ℤ) : WithTop ℤ) ≤ L := by
  cases L using WithTop.recTopCoe with
  | top => exact le_top
  | coe z =>
    rw [WithTop.coe_lt_coe] at h
    rw [WithTop.coe_le_coe]
    omega

theorem regPs_metaOK (ps : Props) (L : WithTop ℤ) : MetaOK (regPs ps L) := by
  refine ⟨0, L, ?_, getProp_regPs_limit ps L, ?_⟩
  · simpa using getProp_regPs_times ps L
  · simp

theorem stepPs_metaOK {ps : Props} (h : MetaOK ps) (hact : dormantPs ps = false) :
    MetaOK (stepPs ps) := by
  obtain ⟨t, L, ht, hl, hb⟩ := h
  have hlt : ((t : ℤ) : WithTop ℤ) < L := by
    rw [dormantPs_num ht hl] at hact
    exact not_le.mp (of_decide_eq_false hact)
  refine ⟨t + 1, L, ?_, ?_, ?_⟩
  · rw [getProp_stepPs_times, ht, jsInc_natCast]
  · rw [getProp_stepPs_limit, hl]
  · exact le_trans (withTop_add_one_le_of_lt hlt) (le_max_left _ _)

theorem emitLoop_metaOK {props : CbId → Props} {cbs : List CbId} (c : CbId)
    (h : MetaOK (props c)) : MetaOK ((emitLoop props cbs).1 c) := by
  induction cbs generalizing props with
  | nil => exact h
  | cons cb rest ih =>
    cases hd : dormantPs (props cb) with
    | true =>
      rw [emitLoop_cons_dormant rest hd]
      exact ih h
    | false =>
      rw [emitLoop_cons_active rest hd]
      dsimp only
      apply ih
      by_cases hc : c = cb
      · subst hc
        have : stepUpd props c c = stepPs (props c) := by simp [stepUpd]
        rw [this]
        exact stepPs_metaOK h hd
      · have : stepUpd props cb c = props c := by simp [stepUpd, hc]
        rw [this]
        exact h

theorem onCore_metaBound {st : EmitterState} (h : MetaBound st) (name : String) (cb : CbId)
    (L : WithTop ℤ) : MetaBound (onCore st name cb L) := by
  intro p hp c hc
  have hprops : (onCore st name cb L).props c =
      (if c = cb then regPs (st.props cb) L else st.props c) := by
    by_cases hcc : c = cb
    · subst hcc
      rw [if_pos rfl, onCore_props_self]
    · rw [if_neg hcc, onCore_props_ne _ _ _ _ _ hcc]
  rw [hprops]
  by_cases hcc : c = cb
  · rw [if_pos hcc]
    exact regPs_metaOK _ _
  · rw [if_neg hcc]
    rw [onCore_events] at hp
    rcases mem_setKey hp with heq | hp'
    · subst heq
      dsimp only at hc
      have hc0 : c ∈ (lookupKey st.events name).getD [] := by
        by_cases hmem : cb ∈ (lookupKey st.events name).getD []
        · rwa [if_pos hmem] at hc
        · rw [if_neg hmem] at hc
          rcases List.mem_append.mp hc with h' | h'
          · exact h'
          · exact absurd (List.mem_singleton.mp h') hcc
      cases hl : lookupKey st.events name with
      | none => rw [hl] at hc0; simp at hc0
      | some cbs0 =>
        rw [hl] at hc0
        exact h _ (lookupKey_some_mem hl) c (by simpa using hc0)
    · exact h _ hp' c hc

theorem offCore_props (st : EmitterState) (name : String) (cb : CbId) :
    (offCore st name cb).props = st.props := by
  rw [offCore]
  cases lookupKey st.events name with
  | none => rfl
  | some cbs =>
    dsimp only
    by_cases he : eraseOne cbs cb = []
    · rw [if_pos he]
    · rw [if_neg he]

theorem removeAllListeners_props (st : EmitterState) (name : Option String) :
    (removeAllListeners st name).props = st.props := by
  cases name with
  | none => rfl
  | some n =>
    rw [removeAllListeners]
    by_cases hn : n = ""
    · rw [if_pos hn]
    · rw [if_neg hn]

theorem offCore_metaBound {st : EmitterState} (h : MetaBound st) (name : String) (cb : CbId) :
    MetaBound (offCore st name cb) := by
  intro p hp c hc
  rw [offCore_props]
  rw [offCore] at hp
  revert hp
  cases hl : lookupKey st.events name with
  | none => exact fun hp => h _ hp c hc
  | some cbs =>
    dsimp only
    by_cases he : eraseOne cbs cb = []
    · rw [if_pos he]
      exact fun hp => h _ ((removeKey_sublist st.events name).subset hp) c hc
    · rw [if_neg he]
      intro hp
      rcases mem_setKey hp with heq | hp'
      · subst heq
        exact h _ (lookupKey_some_mem hl) c (mem_eraseOne hc)
      · exact h _ hp' c hc

theorem emit_metaBound {st : EmitterState} (h : MetaBound st) (name : String) :
    MetaBound (emit st name).2.2 := by
  intro p hp c hc
  rw [emit_events_eq] at hp
  cases hl : lookupKey st.events name with
  | none =>
    rw [emit_none hl]
    exact h _ hp c hc
  | some cbs =>
    rw [emit_some hl]
    exact emitLoop_metaOK c (h _ hp c hc)

theorem removeAllListeners_metaBound {st : EmitterState} (h : MetaBound st)
    (name : Option String) : MetaBound (removeAllListeners st name) := by
  intro p hp c hc
  rw [removeAllListeners_props]
  cases name with
  | none => simp [removeAllListeners] at hp
  | some n =>
    rw [removeAllListeners] at hp
    by_cases hn : n = ""
    · rw [if_pos hn] at hp
      simp at hp
    · rw [if_neg hn] at hp
      exact h _ ((removeKey_sublist st.events n).subset hp) c hc

theorem reachable_metaBound {st : EmitterState} (h : Reachable st) : MetaBound st := by
  induction h with
  | empty => intro p hp c hc; simp [emptyState] at hp
  | onStep _ hok ih =>
    obtain ⟨rfl, -⟩ := on_ok_inv hok
    exact onCore_metaBound ih _ _ _
  | onceStep _ hok ih =>
    obtain ⟨rfl, -⟩ := on_ok_inv hok
    exact onCore_metaBound ih _ _ _
  | offStep _ hok ih =>
    obtain ⟨rfl, -⟩ := off_ok_inv hok
    exact offCore_metaBound ih _ _
  | emitStep _ ih =>
    exact emit_metaBound ih _
  | removeStep _ ih =>
    exact removeAllListeners_metaBound ih _

/-! Helper lemmas shared by the claim theorems. -/

theorem onCore_lookup_self (st : EmitterState) (name : String) (cb : CbId) (L : WithTop ℤ) :
    ∃ cbs, lookupKey (onCore st name cb L).events name = some cbs ∧ cb ∈ cbs := by
  rw [onCore_events]
  refine ⟨_, lookupKey_setKey_self _ _ _, ?_⟩
  by_cases hmem : cb ∈ (lookupKey st.events name).getD []
  · rw [if_pos hmem]
    exact hmem
  · rw [if_neg hmem]
    simp

theorem onCore_lookup_ne (st : EmitterState) (name : String) (cb : CbId) (L : WithTop ℤ)
    (other : String) (h : other ≠ name) :
    lookupKey (onCore st name cb L).events other = lookupKey st.events other := by
  rw [onCore_events]
  exact lookupKey_setKey_ne _ _ _ _ h

theorem listenerCount_congr {st st' : EmitterState} (h : st'.events = st.events)
    (name : String) : listenerCount st' name = listenerCount st name := by
  rw [listenerCount, listenerCount, h]

theorem lookupKey_decorateProps_notMem {ps : Props} {values : List (String × JsVal)}
    {k : String} (h : k ∉ values.map Prod.fst) :
    lookupKey (decorateProps ps values) k = lookupKey ps k := by
  induction values generalizing ps with
  | nil => rfl
  | cons kv rest ih =>
    obtain ⟨k0, v0⟩ := kv
    simp only [List.map_cons, List.mem_cons, not_or] at h
    have hstep : decorateProps ps ((k0, v0) :: rest) =
        decorateProps (setKey ps k0 ⟨v0, true, false, false⟩) rest := rfl
    rw [hstep, ih h.2, lookupKey_setKey_ne _ _ _ _ h.1]

theorem lookupKey_decorateProps {ps : Props} {values : List (String × JsVal)}
    {k : String} {v : JsVal}
    (hnd : (values.map Prod.fst).Nodup) (hk : lookupKey values k = some v) :
    lookupKey (decorateProps ps values) k =
      some { value := v, writable := true, enumerable := false, configurable := false } := by
  induction values generalizing ps with
  | nil => simp [lookupKey] at hk
  | cons kv rest ih =>
    obtain ⟨k0, v0⟩ := kv
    have hstep : decorateProps ps ((k0, v0) :: rest) =
        decorateProps (setKey ps k0 ⟨v0, true, false, false⟩) rest := rfl
    simp only [List.map_cons, List.nodup_cons] at hnd
    by_cases hk0 : k0 = k
    · subst hk0
      have hv : v0 = v := by simpa [lookupKey] using hk
      subst hv
      rw [hstep, lookupKey_decorateProps_notMem hnd.1, lookupKey_setKey_self]
    · rw [lookupKey] at hk
      rw [if_neg hk0] at hk
      rw [hstep]
      exact ih hnd.2 hk

/-- The full lifecycle of a freshly registered listener with a finite
non-negative limit L, across successive emits of its event name: it is
invoked min(n, L) times in n emits, every emit returns true, emits beyond
the limit skip it, and emits within the limit invoke it exactly once. -/
theorem onCore_emit_behavior {st0 : EmitterState} (hwf : StateWF st0)
    (name : String) (cb : CbId) (L : ℕ) :
    (∀ n : ℕ, (emitN (onCore st0 name cb ((L : ℤ) : WithTop ℤ)) name n).2.count cb = min n L)
    ∧ (∀ k : ℕ, L ≤ k →
        (emit (emitN (onCore st0 name cb ((L : ℤ) : WithTop ℤ)) name k).1 name).1 = true
        ∧ cb ∉ (emit (emitN (onCore st0 name cb ((L : ℤ) : WithTop ℤ)) name k).1 name).2.1)
    ∧ (∀ k : ℕ, k < L →
        (emit (emitN (onCore st0 name cb ((L : ℤ) : WithTop ℤ)) name k).1 name).1 = true
        ∧ (emit (emitN (onCore st0 name cb ((L : ℤ) : WithTop ℤ)) name k).1 name).2.1.count cb
            = 1) := by
  obtain ⟨cbsR, hlook, hmem⟩ := onCore_lookup_self st0 name cb ((L : ℤ) : WithTop ℤ)
  have hnd : cbsR.Nodup :=
    ((onCore_wf hwf name cb _).1 _ (lookupKey_some_mem hlook)).2
  have ht : getProp ((onCore st0 name cb ((L : ℤ) : WithTop ℤ)).props cb) "emitTimes" =
      JsVal.num ((0 : ℤ) : WithTop ℤ) := by
    rw [onCore_props_self, getProp_regPs_times]
  have hl : getProp ((onCore st0 name cb ((L : ℤ) : WithTop ℤ)).props cb) "emitLimit" =
      JsVal.num ((L : ℤ) : WithTop ℤ) := by
    rw [onCore_props_self, getProp_regPs_limit]
  have hcount := emitN_counting hlook hmem hnd ht hl
  refine ⟨fun n => (hcount n).2.2, fun k hk => ?_, fun k hk => ?_⟩
  · have hlook' :
        lookupKey (emitN (onCore st0 name cb ((L : ℤ) : WithTop ℤ)) name k).1.events name =
          some cbsR := by
      rw [emitN_events]; exact hlook
    have hge : ((L : ℤ) : WithTop ℤ) ≤ (((min k L : ℕ) : ℤ) : WithTop ℤ) := by
      rw [withTop_natCast_le]; omega
    obtain ⟨htr, -, hc0⟩ :=
      emit_step_dormant hlook' hmem hnd (hcount k).1 (hcount k).2.1 hge
    exact ⟨htr, List.count_eq_zero.mp hc0⟩
  · have hlook' :
        lookupKey (emitN (onCore st0 name cb ((L : ℤ) : WithTop ℤ)) name k).1.events name =
          some cbsR := by
      rw [emitN_events]; exact hlook
    have hlt : (((min k L : ℕ) : ℤ) : WithTop ℤ) < ((L : ℤ) : WithTop ℤ) := by
      rw [withTop_natCast_lt]; omega
    obtain ⟨htr, -, -, -, hc1⟩ :=
      emit_step_active hlook' hmem hnd (hcount k).1 (hcount k).2.1 hlt
    exact ⟨htr, hc1⟩

/-! The claims. -/

/-- Claim C1: a callback registered for an event name with emitLimit = 3 is
invoked exactly min(n, 3) times across n repeated emit calls for that name —
hence exactly 3 times in total once three or more emits have happened — and
on the 4th and every later emit (that is, after k ≥ 3 previous emits) the
entry is skipped with no invocation, while emit still returns true; the
operations are total here, so no error is raised. -/
theorem c1_emit_limit_three {st0 st : EmitterState} {name : String} {cb : CbId}
    (hr : Reachable st0) (hreg : «on» st0 name cb ((3 : ℤ) : WithTop ℤ) = .ok st) :
    (∀ n : ℕ, (emitN st name n).2.count cb = min n 3)
    ∧ (∀ k : ℕ, 3 ≤ k →
        (emit (emitN st name k).1 name).1 = true
        ∧ cb ∉ (emit (emitN st name k).1 name).2.1) := by
  obtain ⟨rfl, -⟩ := on_ok_inv hreg
  have h3 : ((3 : ℤ) : WithTop ℤ) = (((3 : ℕ) : ℤ) : WithTop ℤ) := by norm_num
  rw [h3]
  have hb := onCore_emit_behavior (reachable_wf hr) name cb 3
  exact ⟨hb.1, fun k hk => hb.2.1 k hk⟩

/-- Witness for C1: callback id 0 registered on "a" with limit 3 on a fresh
emitter runs min(5, 3) = 3 times in 5 emits, and the 5th emit (after 4
previous ones) returns true without invoking it. -/
theorem c1_emit_limit_three_witness :
    (emitN (onCore emptyState "a" 0 ((3 : ℤ) : WithTop ℤ)) "a" 5).2.count 0 = min 5 3
    ∧ ((emit (emitN (onCore emptyState "a" 0 ((3 : ℤ) : WithTop ℤ)) "a" 4).1 "a").1 = true
        ∧ 0 ∉ (emit (emitN (onCore emptyState "a" 0 ((3 : ℤ) : WithTop ℤ)) "a" 4).1 "a").2.1) :=
  ⟨(c1_emit_limit_three Reachable.empty (on_ok _ _ _ _ (by decide))).1 5,
   (c1_emit_limit_three Reachable.empty (on_ok _ _ _ _ (by decide))).2 4 (by decide)⟩

/-- Claim C2: on a reachable registry, emit(name) returns false exactly when
no listener entries exist for the name (never registered, or all removed:
listenerCount is 0), and in the false case emit is a pure no-op — unchanged
state and no listener invoked; whenever entries exist it returns true, even
if all of them are dormant. -/
theorem c2_emit_false_iff_no_entries {st : EmitterState} (hr : Reachable st) (name : String) :
    ((emit st name).1 = false ↔ listenerCount st name = 0)
    ∧ ((emit st name).1 = false → emit st name = (false, [], st)) := by
  have hwf := reachable_wf hr
  refine ⟨⟨?_, ?_⟩, ?_⟩
  · intro hf
    cases hl : lookupKey st.events name with
    | none => rw [listenerCount, hl]
    | some cbs =>
      rw [emit_some hl] at hf
      exact absurd hf (by simp)
  · intro hc
    cases hl : lookupKey st.events name with
    | none => rw [emit_none hl]
    | some cbs =>
      have hne : cbs ≠ [] := (hwf.1 _ (lookupKey_some_mem hl)).1
      rw [listenerCount, hl] at hc
      exact absurd hc (by simpa [List.length_eq_zero] using hne)
  · intro hf
    cases hl : lookupKey st.events name with
    | none => exact emit_none hl
    | some cbs =>
      rw [emit_some hl] at hf
      exact absurd hf (by simp)

/-- Witness for C2: a registry holding only "a" emits "b" as false with no
side effects. -/
theorem c2_emit_false_iff_no_entries_witness :
    ((emit (onCore emptyState "a" 0 ((1 : ℤ) : WithTop ℤ)) "b").1 = false ↔
        listenerCount (onCore emptyState "a" 0 ((1 : ℤ) : WithTop ℤ)) "b" = 0)
    ∧ ((emit (onCore emptyState "a" 0 ((1 : ℤ) : WithTop ℤ)) "b").1 = false →
        emit (onCore emptyState "a" 0 ((1 : ℤ) : WithTop ℤ)) "b" =
          (false, [], onCore emptyState "a" 0 ((1 : ℤ) : WithTop ℤ))) :=
  c2_emit_false_iff_no_entries
    (Reachable.onStep Reachable.empty (on_ok _ _ _ _ (by decide))) "b"

/-- Claim C3 is false on the code: the listener Set deduplicates by
reference, so registering the same callback value (id 0) twice for the same
event "a" on a fresh registry leaves one entry and listenerCount 1, not 2. -/
theorem c3_same_callback_twice_cx :
    «on» emptyState "a" 0 ((5 : ℤ) : WithTop ℤ)
      = .ok (onCore emptyState "a" 0 ((5 : ℤ) : WithTop ℤ))
    ∧ «on» (onCore emptyState "a" 0 ((5 : ℤ) : WithTop ℤ)) "a" 0 ((7 : ℤ) : WithTop ℤ)
      = .ok (onCore (onCore emptyState "a" 0 ((5 : ℤ) : WithTop ℤ)) "a" 0
          ((7 : ℤ) : WithTop ℤ))
    ∧ listenerCount
        (onCore (onCore emptyState "a" 0 ((5 : ℤ) : WithTop ℤ)) "a" 0
          ((7 : ℤ) : WithTop ℤ)) "a" = 1
    ∧ listenerCount
        (onCore (onCore emptyState "a" 0 ((5 : ℤ) : WithTop ℤ)) "a" 0
          ((7 : ℤ) : WithTop ℤ)) "a" ≠ 2 :=
  ⟨on_ok _ _ _ _ (by decide), on_ok _ _ _ _ (by decide), by decide, by decide⟩

/-- Claim C3 (amended): registering the same callback value twice for the
same event leaves a single listener entry — the Set deduplicates by
reference — so the event table and listenerCount are unchanged by the second
registration, which only overwrites the metadata shared on the callback
object (emitLimit becomes the new limit, emitTimes is reset to 0). -/
theorem c3_same_callback_twice_dedups {st0 st1 st2 : EmitterState} {name : String}
    {cb : CbId} {L1 L2 : WithTop ℤ}
    (h1 : «on» st0 name cb L1 = .ok st1) (h2 : «on» st1 name cb L2 = .ok st2) :
    st2.events = st1.events
    ∧ listenerCount st2 name = listenerCount st1 name
    ∧ getProp (st2.props cb) "emitLimit" = JsVal.num L2
    ∧ getProp (st2.props cb) "emitTimes" = JsVal.num ((0 : ℤ) : WithTop ℤ) := by
  obtain ⟨rfl, -⟩ := on_ok_inv h1
  obtain ⟨rfl, -⟩ := on_ok_inv h2
  obtain ⟨cbs1, hlook1, hmem1⟩ := onCore_lookup_self st0 name cb L1
  have hev : (onCore (onCore st0 name cb L1) name cb L2).events
      = (onCore st0 name cb L1).events := by
    rw [onCore_events (onCore st0 name cb L1)]
    simp only [hlook1, Option.getD_some]
    rw [if_pos hmem1]
    exact setKey_of_lookup_self hlook1
  refine ⟨hev, listenerCount_congr hev name, ?_, ?_⟩
  · rw [onCore_props_self, getProp_regPs_limit]
  · rw [onCore_props_self, getProp_regPs_times]

/-- Witness for the amended C3 at callback id 0, name "b", limits 5 then 7. -/
theorem c3_same_callback_twice_dedups_witness :
    (onCore (onCore emptyState "b" 0 ((5 : ℤ) : WithTop ℤ)) "b" 0
        ((7 : ℤ) : WithTop ℤ)).events
      = (onCore emptyState "b" 0 ((5 : ℤ) : WithTop ℤ)).events
    ∧ listenerCount
        (onCore (onCore emptyState "b" 0 ((5 : ℤ) : WithTop ℤ)) "b" 0
          ((7 : ℤ) : WithTop ℤ)) "b"
      = listenerCount (onCore emptyState "b" 0 ((5 : ℤ) : WithTop ℤ)) "b"
    ∧ getProp
        ((onCore (onCore emptyState "b" 0 ((5 : ℤ) : WithTop ℤ)) "b" 0
          ((7 : ℤ) : WithTop ℤ)).props 0) "emitLimit" = JsVal.num ((7 : ℤ) : WithTop ℤ)
    ∧ getProp
        ((onCore (onCore emptyState "b" 0 ((5 : ℤ) : WithTop ℤ)) "b" 0
          ((7 : ℤ) : WithTop ℤ)).props 0) "emitTimes"
      = JsVal.num ((0 : ℤ) : WithTop ℤ) :=
  c3_same_callback_twice_dedups (on_ok _ _ _ _ (by decide)) (on_ok _ _ _ _ (by decide))

/-- Claim C4 is false as stated: registration passes any number as
emitLimit, so registering callback id 0 on "a" with emitLimit = -1 on a
fresh registry creates an entry whose emitTimes (0) is not ≤ its
emitLimit (-1). -/
theorem c4_meta_invariant_cx :
    «on» emptyState "a" 0 ((-1 : ℤ) : WithTop ℤ)
      = .ok (onCore emptyState "a" 0 ((-1 : ℤ) : WithTop ℤ))
    ∧ getProp ((onCore emptyState "a" 0 ((-1 : ℤ) : WithTop ℤ)).props 0) "emitTimes"
      = JsVal.num ((0 : ℤ) : WithTop ℤ)
    ∧ getProp ((onCore emptyState "a" 0 ((-1 : ℤ) : WithTop ℤ)).props 0) "emitLimit"
      = JsVal.num ((-1 : ℤ) : WithTop ℤ)
    ∧ ¬ (((0 : ℤ) : WithTop ℤ) ≤ ((-1 : ℤ) : WithTop ℤ)) :=
  ⟨on_ok _ _ _ _ (by decide), by decide, by decide, by decide⟩

/-- Claim C4 (amended): in every reachable state, every listener entry
carries numeric metadata with emitTimes ≤ max(emitLimit, 0) — the bound
emitTimes ≤ emitLimit claimed by the spec holds whenever emitLimit ≥ 0 but
is violated at registration by a negative limit. A dormant entry
(emitTimes ≥ emitLimit under the JS comparison emit uses) is skipped by
emit for its name — no invocation, properties untouched — yet remains
registered (the Set of its name is unchanged), and registration never
removes an entry; only unregister or bulk-clear do. -/
theorem c4_meta_invariant {st : EmitterState} (hr : Reachable st) :
    MetaBound st
    ∧ (∀ (name : String) (cbs : List CbId) (cb : CbId),
        lookupKey st.events name = some cbs → cb ∈ cbs →
        jsGe (getProp (st.props cb) "emitTimes") (getProp (st.props cb) "emitLimit") = true →
        cb ∉ (emit st name).2.1
        ∧ (emit st name).2.2.props cb = st.props cb
        ∧ lookupKey (emit st name).2.2.events name = some cbs)
    ∧ (∀ (name2 : String) (cb2 : CbId) (L : WithTop ℤ) (name : String) (cbs : List CbId)
        (cb : CbId),
        lookupKey st.events name = some cbs → cb ∈ cbs →
        ∃ cbs2, lookupKey (onCore st name2 cb2 L).events name = some cbs2 ∧ cb ∈ cbs2) := by
  refine ⟨reachable_metaBound hr, ?_, ?_⟩
  · intro name cbs cb hlook hmem hdor
    have hnd : cbs.Nodup := ((reachable_wf hr).1 _ (lookupKey_some_mem hlook)).2
    have hd : dormantPs (st.props cb) = true := hdor
    have hprops := (@emitLoop_at_mem st.props cbs cb hmem hnd).1
    have hcount := (@emitLoop_at_mem st.props cbs cb hmem hnd).2
    rw [hd] at hprops hcount
    simp only [if_pos] at hprops hcount
    rw [emit_some hlook]
    exact ⟨List.count_eq_zero.mp hcount, hprops, hlook⟩
  · intro name2 cb2 L name cbs cb hlook hmem
    by_cases h12 : name = name2
    · subst h12
      rw [onCore_events]
      refine ⟨_, lookupKey_setKey_self _ _ _, ?_⟩
      rw [hlook]
      simp only [Option.getD_some]
      by_cases hmem2 : cb2 ∈ cbs
      · rw [if_pos hmem2]
        exact hmem
      · rw [if_neg hmem2]
        exact List.mem_append_left _ hmem
    · rw [onCore_lookup_ne _ _ _ _ _ h12]
      exact ⟨cbs, hlook, hmem⟩

/-- Witness for the amended C4: a listener registered with limit 0 is
dormant from the start; emitting its event skips it, leaves its properties
alone and keeps it registered. -/
theorem c4_meta_invariant_witness :
    MetaBound (onCore emptyState "a" 0 ((0 : ℤ) : WithTop ℤ))
    ∧ (0 ∉ (emit (onCore emptyState "a" 0 ((0 : ℤ) : WithTop ℤ)) "a").2.1
        ∧ (emit (onCore emptyState "a" 0 ((0 : ℤ) : WithTop ℤ)) "a").2.2.props 0
            = (onCore emptyState "a" 0 ((0 : ℤ) : WithTop ℤ)).props 0
        ∧ lookupKey (emit (onCore emptyState "a" 0 ((0 : ℤ) : WithTop ℤ)) "a").2.2.events "a"
            = some [0]) :=
  have h := c4_meta_invariant
    (Reachable.onStep Reachable.empty (on_ok emptyState "a" 0 ((0 : ℤ) : WithTop ℤ) (by decide)))
  ⟨h.1, h.2.1 "a" [0] 0 (by decide) (by decide) (by decide)⟩

/-- Claim C5: in every reachable state an event name is a key of the table
exactly when it has at least one listener (listenerCount positive), and
unregistering the only listener of a name removes the name: eventNames no
longer contains it and listenerCount returns 0. -/
theorem c5_no_empty_sets {st : EmitterState} (hr : Reachable st) :
    (∀ name : String, name ∈ eventNames st ↔ 0 < listenerCount st name)
    ∧ (∀ (name : String) (cb : CbId) (st' : EmitterState),
        lookupKey st.events name = some [cb] → off st name cb = .ok st' →
        name ∉ eventNames st' ∧ listenerCount st' name = 0) := by
  have hwf := reachable_wf hr
  constructor
  · intro name
    constructor
    · intro hmem
      cases hl : lookupKey st.events name with
      | none => exact absurd hmem ((lookupKey_eq_none_iff _ _).mp hl)
      | some cbs =>
        have hne : cbs ≠ [] := (hwf.1 _ (lookupKey_some_mem hl)).1
        rw [listenerCount, hl]
        exact List.length_pos.mpr hne
    · intro hc
      cases hl : lookupKey st.events name with
      | none =>
        rw [listenerCount, hl] at hc
        exact absurd hc (by simp)
      | some cbs =>
        by_contra hmem
        exact absurd hl (by rw [(lookupKey_eq_none_iff st.events name).mpr hmem]; simp)
  · intro name cb st' hlook hoff
    obtain ⟨rfl, -⟩ := off_ok_inv hoff
    have hcore : offCore st name cb =
        { events := removeKey st.events name, props := st.props } := by
      rw [offCore, hlook]
      dsimp only
      rw [if_pos (by simp [eraseOne])]
    rw [hcore]
    refine ⟨?_, ?_⟩
    · exact (lookupKey_eq_none_iff _ _).mp (lookupKey_removeKey_self _ _)
    · rw [listenerCount]
      rw [lookupKey_removeKey_self]

/-- Witness for C5: register id 0 on "a", then unregister it; "a" leaves the
table. -/
theorem c5_no_empty_sets_witness :
    ("a" ∈ eventNames (onCore emptyState "a" 0 ((1 : ℤ) : WithTop ℤ)) ↔
        0 < listenerCount (onCore emptyState "a" 0 ((1 : ℤ) : WithTop ℤ)) "a")
    ∧ ("a" ∉ eventNames (offCore (onCore emptyState "a" 0 ((1 : ℤ) : WithTop ℤ)) "a" 0)
        ∧ listenerCount (offCore (onCore emptyState "a" 0 ((1 : ℤ) : WithTop ℤ)) "a" 0) "a"
            = 0) :=
  have h := c5_no_empty_sets
    (Reachable.onStep Reachable.empty (on_ok emptyState "a" 0 ((1 : ℤ) : WithTop ℤ) (by decide)))
  ⟨h.1 "a", h.2 "a" 0 _ (by decide) (off_ok _ _ _ (by decide))⟩

/-- Claim C6: removeAllListeners(name) for an event name (event names are
non-empty — registration validates that — and a non-empty string is truthy
in the code's `if (name)`) deletes exactly that name's entry set and leaves
every other name's entries unchanged, while removeAllListeners() with no
argument empties the whole table. -/
theorem c6_removeAllListeners_frame (st : EmitterState) (name : String) (h : name ≠ "") :
    lookupKey (removeAllListeners st (some name)).events name = none
    ∧ (∀ other : String, other ≠ name →
        lookupKey (removeAllListeners st (some name)).events other
          = lookupKey st.events other)
    ∧ eventNames (removeAllListeners st none) = [] := by
  refine ⟨?_, ?_, rfl⟩
  · rw [removeAllListeners, if_neg h]
    exact lookupKey_removeKey_self _ _
  · intro other ho
    rw [removeAllListeners, if_neg h]
    exact lookupKey_removeKey_ne _ _ _ ho

/-- Witness for C6 on a registry holding "a" and "b": removing "a" keeps
"b"; the no-argument form clears everything. -/
theorem c6_removeAllListeners_frame_witness :
    lookupKey
      (removeAllListeners
        (onCore (onCore emptyState "a" 0 ((1 : ℤ) : WithTop ℤ)) "b" 1 ((1 : ℤ) : WithTop ℤ))
        (some "a")).events "a" = none
    ∧ (∀ other : String, other ≠ "a" →
        lookupKey
          (removeAllListeners
            (onCore (onCore emptyState "a" 0 ((1 : ℤ) : WithTop ℤ)) "b" 1
              ((1 : ℤ) : WithTop ℤ)) (some "a")).events other
          = lookupKey
              (onCore (onCore emptyState "a" 0 ((1 : ℤ) : WithTop ℤ)) "b" 1
                ((1 : ℤ) : WithTop ℤ)).events other)
    ∧ eventNames
        (removeAllListeners
          (onCore (onCore emptyState "a" 0 ((1 : ℤ) : WithTop ℤ)) "b" 1
            ((1 : ℤ) : WithTop ℤ)) none) = [] :=
  c6_removeAllListeners_frame
    (onCore (onCore emptyState "a" 0 ((1 : ℤ) : WithTop ℤ)) "b" 1 ((1 : ℤ) : WithTop ℤ))
    "a" (by decide)

/-- Claim C7: registerOnce(name, callback) is the same function as
register(name, callback, 1) — the source of once literally delegates to on
with limit 1, so the resulting states agree on every input — and the
listener it registers runs on the first emit of the name (invoked exactly
once, emit returns true) and is dormant afterwards: across n emits it runs
min(n, 1) times, and every emit after the first skips it while still
returning true. -/
theorem c7_once_equiv_on_limit_one {st0 st : EmitterState} {name : String} {cb : CbId}
    (hr : Reachable st0) (hreg : once st0 name cb = .ok st) :
    (∀ (s : EmitterState) (nm : String) (c : CbId),
        once s nm c = «on» s nm c ((1 : ℤ) : WithTop ℤ))
    ∧ ((emit st name).1 = true ∧ (emit st name).2.1.count cb = 1)
    ∧ (∀ n : ℕ, (emitN st name n).2.count cb = min n 1)
    ∧ (∀ k : ℕ, 1 ≤ k →
        (emit (emitN st name k).1 name).1 = true
        ∧ cb ∉ (emit (emitN st name k).1 name).2.1) := by
  have hreg' : «on» st0 name cb ((1 : ℤ) : WithTop ℤ) = .ok st := hreg
  obtain ⟨rfl, -⟩ := on_ok_inv hreg'
  have h1 : ((1 : ℤ) : WithTop ℤ) = (((1 : ℕ) : ℤ) : WithTop ℤ) := by norm_num
  rw [h1]
  have hb := onCore_emit_behavior (reachable_wf hr) name cb 1
  refine ⟨fun s nm c => rfl, ?_, hb.1, fun k hk => hb.2.1 k hk⟩
  exact hb.2.2 0 (by omega)

/-- Witness for C7: once on a fresh emitter, the first emit invokes the
listener once and the emit after two emits skips it. -/
theorem c7_once_equiv_on_limit_one_witness :
    (once emptyState "a" 0 = «on» emptyState "a" 0 ((1 : ℤ) : WithTop ℤ))
    ∧ ((emit (onCore emptyState "a" 0 ((1 : ℤ) : WithTop ℤ)) "a").1 = true
        ∧ (emit (onCore emptyState "a" 0 ((1 : ℤ) : WithTop ℤ)) "a").2.1.count 0 = 1)
    ∧ 0 ∉ (emit (emitN (onCore emptyState "a" 0 ((1 : ℤ) : WithTop ℤ)) "a" 2).1 "a").2.1 :=
  have h := c7_once_equiv_on_limit_one Reachable.empty
    (on_ok emptyState "a" 0 ((1 : ℤ) : WithTop ℤ) (by decide))
  ⟨h.1 emptyState "a" 0, h.2.1, (h.2.2.2 2 (by decide)).2⟩

/-- Claim C8: decorate(callback, fields) attaches every key of fields as a
property of the callback object whose descriptor is writable,
non-enumerable and non-configurable, overwriting any prior binding of that
key — the prior property table is universally quantified, so this covers
repeated decorations — and returns the very same callback reference, not a
copy. -/
theorem c8_decorate_spec {props : CbId → Props} {listener : CbId}
    {values : List (String × JsVal)} {k : String} {v : JsVal}
    (hnd : (values.map Prod.fst).Nodup) (hk : lookupKey values k = some v) :
    lookupKey ((decorate props listener values).1 listener) k =
      some { value := v, writable := true, enumerable := false, configurable := false }
    ∧ (decorate props listener values).2 = listener := by
  constructor
  · have hself : (decorate props listener values).1 listener
        = decorateProps (props listener) values := by
      simp [decorate]
    rw [hself]
    exact lookupKey_decorateProps hnd hk
  · rfl

/-- Witness for C8 at the decoration the emitter itself applies on
registration, over a callback that already carries an older binding of the
same keys. -/
theorem c8_decorate_spec_witness :
    lookupKey
      ((decorate
        (fun _ => [("emitTimes", PropDesc.mk (JsVal.num ((9 : ℤ) : WithTop ℤ)) true false false)])
        0
        [("emitLimit", JsVal.num ((2 : ℤ) : WithTop ℤ)),
          ("emitTimes", JsVal.num ((0 : ℤ) : WithTop ℤ))]).1 0) "emitTimes" =
      some (PropDesc.mk (JsVal.num ((0 : ℤ) : WithTop ℤ)) true false false)
    ∧ (decorate
        (fun _ => [("emitTimes", PropDesc.mk (JsVal.num ((9 : ℤ) : WithTop ℤ)) true false false)])
        0
        [("emitLimit", JsVal.num ((2 : ℤ) : WithTop ℤ)),
          ("emitTimes", JsVal.num ((0 : ℤ) : WithTop ℤ))]).2 = 0 :=
  c8_decorate_spec (by decide) (by decide)

/-- Claim C9: registering the same physical callback for two different
event names with different limits leaves the callback's decoration at the
most recent registration's limit with emitTimes reset to 0; both names hold
the callback as an entry, and both read that same single metadata slot (the
state stores one property table per callback id, shared by the entries). -/
theorem c9_shared_callback_last_registration_wins {st0 st1 st2 : EmitterState}
    {name1 name2 : String} {cb : CbId} {L1 L2 : WithTop ℤ}
    (hne : name1 ≠ name2) (_hLL : L1 ≠ L2)
    (h1 : «on» st0 name1 cb L1 = .ok st1) (h2 : «on» st1 name2 cb L2 = .ok st2) :
    getProp (st2.props cb) "emitLimit" = JsVal.num L2
    ∧ getProp (st2.props cb) "emitTimes" = JsVal.num ((0 : ℤ) : WithTop ℤ)
    ∧ (∃ cbs1, lookupKey st2.events name1 = some cbs1 ∧ cb ∈ cbs1)
    ∧ (∃ cbs2, lookupKey st2.events name2 = some cbs2 ∧ cb ∈ cbs2) := by
  obtain ⟨rfl, -⟩ := on_ok_inv h1
  obtain ⟨rfl, -⟩ := on_ok_inv h2
  refine ⟨?_, ?_, ?_, ?_⟩
  · rw [onCore_props_self, getProp_regPs_limit]
  · rw [onCore_props_self, getProp_regPs_times]
  · obtain ⟨cbs1, hlook1, hmem1⟩ := onCore_lookup_self st0 name1 cb L1
    refine ⟨cbs1, ?_, hmem1⟩
    rw [onCore_lookup_ne _ _ _ _ _ hne]
    exact hlook1
  · exact onCore_lookup_self _ name2 cb L2

/-- Witness for C9: id 0 registered on "a" with limit 2, then on "b" with
limit 5; its metadata reads limit 5, times 0, and both names list it. -/
theorem c9_shared_callback_last_registration_wins_witness :
    getProp
      ((onCore (onCore emptyState "a" 0 ((2 : ℤ) : WithTop ℤ)) "b" 0
        ((5 : ℤ) : WithTop ℤ)).props 0) "emitLimit" = JsVal.num ((5 : ℤ) : WithTop ℤ)
    ∧ getProp
        ((onCore (onCore emptyState "a" 0 ((2 : ℤ) : WithTop ℤ)) "b" 0
          ((5 : ℤ) : WithTop ℤ)).props 0) "emitTimes" = JsVal.num ((0 : ℤ) : WithTop ℤ)
    ∧ (∃ cbs1, lookupKey
        (onCore (onCore emptyState "a" 0 ((2 : ℤ) : WithTop ℤ)) "b" 0
          ((5 : ℤ) : WithTop ℤ)).events "a" = some cbs1 ∧ 0 ∈ cbs1)
    ∧ (∃ cbs2, lookupKey
        (onCore (onCore emptyState "a" 0 ((2 : ℤ) : WithTop ℤ)) "b" 0
          ((5 : ℤ) : WithTop ℤ)).events "b" = some cbs2 ∧ 0 ∈ cbs2) :=
  c9_shared_callback_last_registration_wins (by decide) (by decide)
    (on_ok _ _ _ _ (by decide)) (on_ok _ _ _ _ (by decide))

/-- Claim C10: registration accepts every number as emitLimit — for all
limits the validated call succeeds — and an entry registered with a limit
L ≤ 0 is dormant from the start: across any number of emits of its name it
is never invoked, yet it counts toward listenerCount and its presence alone
makes emit return true. -/
theorem c10_nonpositive_limit_never_runs {st0 st : EmitterState} {name : String} {cb : CbId}
    {L : ℤ} (hr : Reachable st0) (hL : L ≤ 0)
    (hreg : «on» st0 name cb (L : WithTop ℤ) = .ok st) :
    (∀ L' : WithTop ℤ, «on» st0 name cb L' = .ok (onCore st0 name cb L'))
    ∧ 0 < listenerCount st name
    ∧ (∀ n : ℕ,
        (emitN st name n).2.count cb = 0
        ∧ (emit (emitN st name n).1 name).1 = true) := by
  obtain ⟨rfl, hn⟩ := on_ok_inv hreg
  obtain ⟨cbs, hlook, hmem⟩ := onCore_lookup_self st0 name cb (L : WithTop ℤ)
  have hnd : cbs.Nodup :=
    ((onCore_wf (reachable_wf hr) name cb _).1 _ (lookupKey_some_mem hlook)).2
  have ht0 : getProp ((onCore st0 name cb (L : WithTop ℤ)).props cb) "emitTimes"
      = JsVal.num ((0 : ℤ) : WithTop ℤ) := by
    rw [onCore_props_self, getProp_regPs_times]
  have hl0 : getProp ((onCore st0 name cb (L : WithTop ℤ)).props cb) "emitLimit"
      = JsVal.num (L : WithTop ℤ) := by
    rw [onCore_props_self, getProp_regPs_limit]
  have hge : (L : WithTop ℤ) ≤ ((0 : ℤ) : WithTop ℤ) := WithTop.coe_le_coe.mpr hL
  have key : ∀ n : ℕ,
      (emitN (onCore st0 name cb (L : WithTop ℤ)) name n).1.props cb
        = (onCore st0 name cb (L : WithTop ℤ)).props cb
      ∧ (emitN (onCore st0 name cb (L : WithTop ℤ)) name n).2.count cb = 0 := by
    intro n
    induction n with
    | zero => exact ⟨rfl, rfl⟩
    | succ n ih =>
      have hlook' :
          lookupKey (emitN (onCore st0 name cb (L : WithTop ℤ)) name n).1.events name
            = some cbs := by
        rw [emitN_events]; exact hlook
      have hts : getProp ((emitN (onCore st0 name cb (L : WithTop ℤ)) name n).1.props cb)
          "emitTimes" = JsVal.num ((0 : ℤ) : WithTop ℤ) := by
        rw [ih.1]; exact ht0
      have hls : getProp ((emitN (onCore st0 name cb (L : WithTop ℤ)) name n).1.props cb)
          "emitLimit" = JsVal.num (L : WithTop ℤ) := by
        rw [ih.1]; exact hl0
      obtain ⟨-, hp, hc⟩ := emit_step_dormant hlook' hmem hnd hts hls hge
      constructor
      · rw [emitN_succ]
        dsimp only
        rw [hp, ih.1]
      · rw [emitN_succ]
        dsimp only
        rw [List.count_append, ih.2, hc]
  refine ⟨fun L' => on_ok _ _ _ _ hn, ?_, ?_⟩
  · rw [listenerCount, hlook]
    exact List.length_pos.mpr (List.ne_nil_of_mem hmem)
  · intro n
    refine ⟨(key n).2, ?_⟩
    have hlook' :
        lookupKey (emitN (onCore st0 name cb (L : WithTop ℤ)) name n).1.events name
          = some cbs := by
      rw [emitN_events]; exact hlook
    rw [emit_some hlook']

/-- Witness for C10: id 0 registered on "a" with limit -2 never runs across
three emits, each of which returns true; registering with limit 5 also
succeeds. -/
theorem c10_nonpositive_limit_never_runs_witness :
    «on» emptyState "a" 0 ((5 : ℤ) : WithTop ℤ)
      = .ok (onCore emptyState "a" 0 ((5 : ℤ) : WithTop ℤ))
    ∧ 0 < listenerCount (onCore emptyState "a" 0 ((-2 : ℤ) : WithTop ℤ)) "a"
    ∧ ((emitN (onCore emptyState "a" 0 ((-2 : ℤ) : WithTop ℤ)) "a" 3).2.count 0 = 0
        ∧ (emit (emitN (onCore emptyState "a" 0 ((-2 : ℤ) : WithTop ℤ)) "a" 3).1 "a").1
            = true) :=
  have h := c10_nonpositive_limit_never_runs Reachable.empty
    (show (-2 : ℤ) ≤ 0 by decide)
    (on_ok emptyState "a" 0 ((-2 : ℤ) : WithTop ℤ) (by decide))
  ⟨h.1 ((5 : ℤ) : WithTop ℤ), h.2.1, h.2.2 3⟩

end ErfEvents

